import Mathlib

/-!
Verification of the progressive thumbnail-loading subsystem of the
`view_pic` image-browsing application.

The development shallowly embeds the Python sources:

* `src/services/thumbnail_cache.py` — `ThumbnailCache` (an `OrderedDict`
  used as a FIFO-with-refresh cache keyed by the resolved path string);
* `src/services/image_service.py` — `list_images_in_folder_batch`
  (paginated directory scanning);
* `src/services/async_thumbnail_service.py` — `AsyncThumbnailService`
  (the worker body `process_single_image`, the completion handler
  `on_future_done`, the monitor `wait_all_complete`, submission and
  cancellation), modelled as a transition system over handler-atomic
  steps.

Machine integers do not overflow in any of the modelled code paths
(collection sizes), so counters are embedded as `Nat`.
-/

/-- Paths are embedded as opaque strings; `Path.resolve()` is an
OS-dependent canonicalization and is kept abstract as a quantified
function `FsPath → String` wherever it matters. -/
abbrev FsPath := String

/-! ## Thumbnail Cache (`src/services/thumbnail_cache.py`)

`self._cache` is an `OrderedDict[str, str]`; we embed it as an ordered
association list, oldest entry first, together with `max_size`.  A real
`OrderedDict` never holds duplicate keys, so well-formedness (`Nodup` of
the key column) appears as a hypothesis where a theorem needs it. -/

/-- Keys (first components) of an association list, in order. -/
def keysOf (l : List (String × String)) : List String := l.map Prod.fst

/-- Embedding of `del self._cache[key]` (guarded by `if key in self._cache`):
removes the entry holding `key`; on a duplicate-free list this is exactly
the Python `del`, and when the key is absent it is the identity, matching
the guarded Python code. -/
def removeKey : List (String × String) → String → List (String × String)
  | [], _ => []
  | e :: rest, k => if e.1 = k then rest else e :: removeKey rest k

/-- Embedding of `self._cache[key]` guarded by `key in self._cache`:
first (unique) binding of the key, if any. -/
def lookupKey : List (String × String) → String → Option String
  | [], _ => none
  | e :: rest, k => if e.1 = k then some e.2 else lookupKey rest k

/-- State of a `ThumbnailCache` instance: `max_size` plus the ordered
dictionary contents (oldest first). -/
structure ThumbnailCache where
  maxSize : Nat
  entries : List (String × String)
deriving DecidableEq, Repr

/-- Embedding of `ThumbnailCache.size`: `len(self._cache)`. -/
def ThumbnailCache.size (c : ThumbnailCache) : Nat := c.entries.length

/-- Embedding of `ThumbnailCache.clear`. -/
def ThumbnailCache.clear (c : ThumbnailCache) : ThumbnailCache :=
  ⟨c.maxSize, []⟩

/-- Key-level embedding of `ThumbnailCache.get` (after the
`str(image_path.resolve())` key computation). -/
def cacheGetKey (c : ThumbnailCache) (key : String) : Option String :=
  lookupKey c.entries key

/-- Key-level embedding of `ThumbnailCache.contains`. -/
def cacheContainsKey (c : ThumbnailCache) (key : String) : Bool :=
  (lookupKey c.entries key).isSome

/-- Key-level embedding of `ThumbnailCache.put` (after the
`str(image_path.resolve())` key computation), following the source line
by line: delete the key if present, then, if `len(self._cache) >=
self.max_size`, `popitem(last=False)` (which raises `KeyError` on an
empty dict — embedded as `none`), then append the new entry. -/
def cachePutKey (c : ThumbnailCache) (key v : String) : Option ThumbnailCache :=
  if c.maxSize ≤ (removeKey c.entries key).length then
    match removeKey c.entries key with
    | [] => none
    | _ :: tl => some ⟨c.maxSize, tl ++ [(key, v)]⟩
  else
    some ⟨c.maxSize, removeKey c.entries key ++ [(key, v)]⟩

/-- Embedding of `ThumbnailCache.get`: resolve the path, look the key up. -/
def ThumbnailCache.get (resolve : FsPath → String) (c : ThumbnailCache)
    (imagePath : FsPath) : Option String :=
  cacheGetKey c (resolve imagePath)

/-- Embedding of `ThumbnailCache.put`: resolve the path, insert at key level. -/
def ThumbnailCache.put (resolve : FsPath → String) (c : ThumbnailCache)
    (imagePath : FsPath) (dataUri : String) : Option ThumbnailCache :=
  cachePutKey c (resolve imagePath) dataUri

/-- Embedding of `ThumbnailCache.contains`. -/
def ThumbnailCache.contains (resolve : FsPath → String) (c : ThumbnailCache)
    (imagePath : FsPath) : Bool :=
  cacheContainsKey c (resolve imagePath)

/-- Sequence of `put` calls at key level (each key already resolved). -/
def foldPutsKey (c : ThumbnailCache) : List (String × String) → Option ThumbnailCache
  | [] => some c
  | (k, v) :: rest =>
    match cachePutKey c k v with
    | none => none
    | some c1 => foldPutsKey c1 rest

lemma removeKey_length_le (l : List (String × String)) (k : String) :
    (removeKey l k).length ≤ l.length := by
  induction l with
  | nil => simp [removeKey]
  | cons e rest ih =>
    by_cases h : e.1 = k
    · simp only [removeKey, h, if_true, List.length_cons]
      omega
    · simp only [removeKey, h, if_false, List.length_cons]
      omega

lemma removeKey_of_not_mem (l : List (String × String)) (k : String)
    (h : k ∉ keysOf l) : removeKey l k = l := by
  induction l with
  | nil => simp [removeKey]
  | cons e rest ih =>
    simp only [keysOf, List.map_cons, List.mem_cons] at h
    push_neg at h
    have h1 : e.1 ≠ k := fun hk => h.1 hk.symm
    simp [removeKey, h1, ih (by simpa [keysOf] using h.2)]

lemma cachePutKey_size_le {c c1 : ThumbnailCache} {k v : String}
    (h : cachePutKey c k v = some c1) (hle : c.size ≤ c.maxSize) :
    c1.size ≤ c.maxSize ∧ c1.maxSize = c.maxSize := by
  have hrl := removeKey_length_le c.entries k
  simp only [ThumbnailCache.size] at hle
  rcases he : removeKey c.entries k with _ | ⟨e, tl⟩
  · rw [he] at hrl
    simp only [cachePutKey, he, List.length_nil] at h
    by_cases hc : c.maxSize ≤ 0
    · simp [hc] at h
    · simp only [hc, if_false, Option.some.injEq] at h
      subst h
      refine ⟨?_, rfl⟩
      simp only [ThumbnailCache.size, List.length_append, List.length_nil,
        List.length_cons]
      omega
  · rw [he] at hrl
    simp only [List.length_cons] at hrl
    simp only [cachePutKey, he, List.length_cons] at h
    by_cases hc : c.maxSize ≤ tl.length + 1
    · simp only [hc, if_true, Option.some.injEq] at h
      subst h
      refine ⟨?_, rfl⟩
      simp only [ThumbnailCache.size, List.length_append, List.length_nil,
        List.length_cons]
      omega
    · simp only [hc, if_false, Option.some.injEq] at h
      subst h
      refine ⟨?_, rfl⟩
      simp only [ThumbnailCache.size, List.length_append, List.length_nil,
        List.length_cons]
      omega

lemma foldPutsKey_size {ops : List (String × String)} :
    ∀ {c0 c : ThumbnailCache}, foldPutsKey c0 ops = some c →
      c0.size ≤ c0.maxSize → c.size ≤ c0.maxSize ∧ c.maxSize = c0.maxSize := by
  induction ops with
  | nil =>
    intro c0 c h hle
    simp only [foldPutsKey, Option.some.injEq] at h
    subst h
    exact ⟨hle, rfl⟩
  | cons kv rest ih =>
    intro c0 c h hle
    rcases kv with ⟨k, v⟩
    simp only [foldPutsKey] at h
    rcases hp : cachePutKey c0 k v with _ | c1
    · rw [hp] at h
      simp at h
    · rw [hp] at h
      have hstep := cachePutKey_size_le hp hle
      have hrec := ih h (by rw [hstep.2]; exact hstep.1)
      rw [hstep.2] at hrec
      exact hrec

/-- C6: for every sequence of `put` calls on a `ThumbnailCache` of
capacity `max_size` (starting from the freshly constructed, empty
cache), after each successful call `size() <= max_size` holds.  Every
prefix of a call sequence is itself a call sequence, so quantifying over
all sequences expresses "after each call".  (`put` can fail only for
`max_size = 0`, where Python raises `KeyError` out of
`popitem(last=False)` on the empty `OrderedDict` before anything is
inserted, leaving `size() = 0 <= max_size` as well.) -/
theorem cache_capacity_invariant (m : Nat) (ops : List (String × String))
    (c : ThumbnailCache) (h : foldPutsKey ⟨m, []⟩ ops = some c) :
    c.size ≤ m :=
  (foldPutsKey_size h (by simp [ThumbnailCache.size])).1

/-- Witness for C6 at capacity 2 and three inserted keys. -/
theorem cache_capacity_invariant_witness :
    (ThumbnailCache.mk 2 [("b", "2"), ("c", "3")]).size ≤ 2 :=
  cache_capacity_invariant 2 [("a", "1"), ("b", "2"), ("c", "3")]
    (ThumbnailCache.mk 2 [("b", "2"), ("c", "3")]) (by decide)

lemma lookupKey_append (E F : List (String × String)) (k : String)
    (h : k ∉ keysOf E) : lookupKey (E ++ F) k = lookupKey F k := by
  induction E with
  | nil => simp
  | cons e rest ih =>
    simp only [keysOf, List.map_cons, List.mem_cons] at h
    push_neg at h
    have h1 : e.1 ≠ k := fun hk => h.1 hk.symm
    simp only [List.cons_append, lookupKey, h1, if_false]
    exact ih (by simpa [keysOf] using h.2)

lemma lookupKey_eq_none_of_not_mem (l : List (String × String)) (k : String)
    (h : k ∉ keysOf l) : lookupKey l k = none := by
  have := lookupKey_append l [] k h
  simpa using this
/-- Keys of a cons cell. -/
lemma keysOf_cons (e : String × String) (l : List (String × String)) :
    keysOf (e :: l) = e.1 :: keysOf l := rfl

/-- Keys of an append. -/
lemma keysOf_append (E F : List (String × String)) :
    keysOf (E ++ F) = keysOf E ++ keysOf F := by
  simp [keysOf]

/-- Inserting a list of pairs whose keys are fresh (pairwise distinct and
absent from the cache) into a cache that satisfies the capacity
invariant behaves as a pure FIFO queue: the final contents are the last
`maxSize`-many of the combined old-then-new entry sequence. -/
lemma foldPutsKey_fresh (ps : List (String × String)) :
    ∀ c : ThumbnailCache, 1 ≤ c.maxSize → c.entries.length ≤ c.maxSize →
      (keysOf ps).Nodup → (∀ k ∈ keysOf ps, k ∉ keysOf c.entries) →
      foldPutsKey c ps
        = some ⟨c.maxSize,
            (c.entries ++ ps).drop (c.entries.length + ps.length - c.maxSize)⟩ := by
  induction ps with
  | nil =>
    intro c h1 hle hnd hfresh
    simp only [foldPutsKey, List.append_nil, List.length_nil, Nat.add_zero,
      Nat.sub_eq_zero_of_le hle, List.drop_zero]
  | cons kv rest ih =>
    intro c h1 hle hnd hfresh
    rcases kv with ⟨k, v⟩
    have hkfresh : k ∉ keysOf c.entries := by
      apply hfresh
      simp [keysOf]
    have hrm : removeKey c.entries k = c.entries :=
      removeKey_of_not_mem c.entries k hkfresh
    have hndk : k ∉ keysOf rest := by
      simp only [keysOf, List.map_cons, List.nodup_cons] at hnd
      exact fun hmem => hnd.1 (by simpa [keysOf] using hmem)
    have hndrest : (keysOf rest).Nodup := by
      simp only [keysOf, List.map_cons, List.nodup_cons] at hnd
      exact hnd.2
    have hfreshrest : ∀ k2 ∈ keysOf rest, k2 ∉ keysOf c.entries := by
      intro k2 hk2
      apply hfresh
      rw [keysOf_cons]
      exact List.mem_cons_of_mem _ hk2
    by_cases hfull : c.maxSize ≤ c.entries.length
    · -- cache at capacity: evict the oldest entry, then append
      have hlen : c.entries.length = c.maxSize := le_antisymm hle hfull
      rcases hent : c.entries with _ | ⟨e, tl⟩
      · rw [hent] at hlen
        simp only [List.length_nil] at hlen
        omega
      · have hrm2 : removeKey (e :: tl) k = e :: tl := by
          rw [← hent]
          exact hrm
        have hcond : c.maxSize ≤ (e :: tl).length := by
          rw [← hent]
          exact hfull
        have hput : cachePutKey c k v = some ⟨c.maxSize, tl ++ [(k, v)]⟩ := by
          simp only [cachePutKey, hent, hrm2]
          rw [if_pos hcond]
        have htl1 : tl.length + 1 = c.maxSize := by
          rw [hent] at hlen
          simpa using hlen
        have hfresh1 : ∀ k2 ∈ keysOf rest, k2 ∉ keysOf (tl ++ [(k, v)]) := by
          intro k2 hk2 hmem
          rw [keysOf_append] at hmem
          rcases List.mem_append.1 hmem with h | h
          · apply hfreshrest k2 hk2
            rw [hent, keysOf_cons]
            exact List.mem_cons_of_mem _ h
          · have hk2k : k2 = k := by
              simpa [keysOf] using h
            exact hndk (hk2k ▸ hk2)
        have hrec := ih ⟨c.maxSize, tl ++ [(k, v)]⟩ h1
          (by simp only [List.length_append, List.length_cons, List.length_nil]
              omega)
          hndrest hfresh1
        dsimp only at hrec
        simp only [foldPutsKey, hput]
        rw [hrec]
        have h2 : (tl ++ [(k, v)]).length + rest.length - c.maxSize
            = rest.length := by
          simp only [List.length_append, List.length_cons, List.length_nil]
          omega
        have h3 : (e :: tl).length + ((k, v) :: rest).length - c.maxSize
            = rest.length + 1 := by
          simp only [List.length_cons]
          omega
        rw [h2, h3]
        simp only [List.cons_append, List.drop_succ_cons, List.append_assoc,
          List.singleton_append, List.nil_append]
    · -- cache below capacity: plain append
      have hput : cachePutKey c k v = some ⟨c.maxSize, c.entries ++ [(k, v)]⟩ := by
        simp only [cachePutKey, hrm]
        rw [if_neg (by omega)]
      have hfresh1 : ∀ k2 ∈ keysOf rest, k2 ∉ keysOf (c.entries ++ [(k, v)]) := by
        intro k2 hk2 hmem
        rw [keysOf_append] at hmem
        rcases List.mem_append.1 hmem with h | h
        · exact hfreshrest k2 hk2 h
        · have hk2k : k2 = k := by
            simpa [keysOf] using h
          exact hndk (hk2k ▸ hk2)
      have hrec := ih ⟨c.maxSize, c.entries ++ [(k, v)]⟩ h1
        (by simp only [List.length_append, List.length_cons, List.length_nil]
            omega)
        hndrest hfresh1
      dsimp only at hrec
      simp only [foldPutsKey, hput]
      rw [hrec]
      have h2 : (c.entries ++ [(k, v)]).length + rest.length - c.maxSize
          = c.entries.length + ((k, v) :: rest).length - c.maxSize := by
        simp only [List.length_append, List.length_cons, List.length_nil]
        omega
      rw [h2]
      simp only [List.append_assoc, List.singleton_append, List.nil_append,
        List.cons_append]

/-- Position `i` key of a pair list (used to name `k2`, `k3` in C5). -/
def keyAt (ps : List (String × String)) (i : Nat) : String :=
  (ps.getD i ("", "")).1

/-- C5: FIFO-with-refresh eviction.  Inserting `N+1` pairwise-distinct
keys `k1..k(N+1)` in order into an empty cache of capacity `N` leaves
exactly `k2..k(N+1)` (`k1` evicted).  Re-inserting the existing key `k2`
first deletes its old entry and appends it as newest (no eviction), so
the next eviction — caused by inserting a fresh key — removes `k3`, and
`k2` survives. -/
theorem cache_fifo_with_refresh (N : Nat) (hN : 1 ≤ N)
    (ps : List (String × String)) (hlen : ps.length = N + 1)
    (hnd : (keysOf ps).Nodup) :
    foldPutsKey ⟨N, []⟩ ps = some ⟨N, ps.drop 1⟩
    ∧ (2 ≤ N → ∀ v2 kNew vNew, kNew ∉ keysOf ps →
        cachePutKey ⟨N, ps.drop 1⟩ (keyAt ps 1) v2
          = some ⟨N, ps.drop 2 ++ [(keyAt ps 1, v2)]⟩
        ∧ cachePutKey ⟨N, ps.drop 2 ++ [(keyAt ps 1, v2)]⟩ kNew vNew
          = some ⟨N, ps.drop 3 ++ [(keyAt ps 1, v2), (kNew, vNew)]⟩
        ∧ cacheContainsKey ⟨N, ps.drop 3 ++ [(keyAt ps 1, v2), (kNew, vNew)]⟩
            (keyAt ps 1) = true
        ∧ cacheContainsKey ⟨N, ps.drop 3 ++ [(keyAt ps 1, v2), (kNew, vNew)]⟩
            (keyAt ps 2) = false) := by
  constructor
  · have h := foldPutsKey_fresh ps ⟨N, []⟩ hN (by simp) hnd (by simp [keysOf])
    dsimp only at h
    rw [h]
    simp only [List.nil_append, List.length_nil, Nat.zero_add, hlen]
    have h1 : N + 1 - N = 1 := by omega
    rw [h1]
  · intro hN2 v2 kNew vNew hNew
    rcases ps with _ | ⟨a, ps⟩
    · simp only [List.length_nil] at hlen
      omega
    rcases ps with _ | ⟨b, ps⟩
    · simp only [List.length_cons, List.length_nil] at hlen
      omega
    rcases ps with _ | ⟨cc, t⟩
    · simp only [List.length_cons, List.length_nil] at hlen
      omega
    have htlen : t.length = N - 2 := by
      simp only [List.length_cons] at hlen
      omega
    simp only [keysOf, List.map_cons, List.nodup_cons, List.mem_cons,
      List.mem_map] at hnd
    push_neg at hnd
    simp only [keysOf, List.map_cons, List.mem_cons, List.mem_map] at hNew
    push_neg at hNew
    have hk2 : keyAt (a :: b :: cc :: t) 1 = b.1 := rfl
    have hk3 : keyAt (a :: b :: cc :: t) 2 = cc.1 := rfl
    have hb_t : b.1 ∉ keysOf t := by
      intro hmem
      simp only [keysOf] at hmem
      rcases List.mem_map.1 hmem with ⟨x, hx, hxe⟩
      exact hnd.2.1.2 x hx hxe
    have hc_t : cc.1 ∉ keysOf t := by
      intro hmem
      simp only [keysOf] at hmem
      rcases List.mem_map.1 hmem with ⟨x, hx, hxe⟩
      exact hnd.2.2.1 x hx hxe
    have hput1 : cachePutKey ⟨N, b :: cc :: t⟩ b.1 v2
        = some ⟨N, cc :: (t ++ [(b.1, v2)])⟩ := by
      have hrm : removeKey (b :: cc :: t) b.1 = cc :: t := by
        simp [removeKey]
      have hcond : ¬ (N ≤ (cc :: t).length) := by
        simp only [List.length_cons]
        omega
      simp only [cachePutKey, hrm]
      rw [if_neg hcond]
      simp
    have hkNew1 : kNew ∉ keysOf (cc :: (t ++ [(b.1, v2)])) := by
      intro hmem
      simp only [keysOf, List.map_cons, List.map_append, List.map_cons,
        List.map_nil, List.mem_cons, List.mem_append, List.mem_singleton,
        List.mem_map, List.not_mem_nil, or_false] at hmem
      rcases hmem with h | h | h
      · exact hNew.2.2.1 h
      · rcases h with ⟨x, hx, hxe⟩
        exact hNew.2.2.2 x hx hxe
      · exact hNew.2.1 h
    have hput2 : cachePutKey ⟨N, cc :: (t ++ [(b.1, v2)])⟩ kNew vNew
        = some ⟨N, t ++ [(b.1, v2), (kNew, vNew)]⟩ := by
      have hrm : removeKey (cc :: (t ++ [(b.1, v2)])) kNew
          = cc :: (t ++ [(b.1, v2)]) :=
        removeKey_of_not_mem _ _ hkNew1
      have hcond : N ≤ (cc :: (t ++ [(b.1, v2)])).length := by
        simp only [List.length_cons, List.length_append, List.length_nil]
        omega
      simp only [cachePutKey, hrm]
      rw [if_pos hcond]
      simp
    have hlook2 : lookupKey (t ++ [(b.1, v2), (kNew, vNew)]) b.1 = some v2 := by
      rw [lookupKey_append t _ b.1 hb_t]
      simp [lookupKey]
    have hc_not3 : cc.1 ∉ keysOf (t ++ [(b.1, v2), (kNew, vNew)]) := by
      intro hmem
      simp only [keysOf, List.map_append, List.map_cons, List.map_nil,
        List.mem_append, List.mem_cons, List.mem_map,
        List.not_mem_nil, or_false] at hmem
      rcases hmem with h | h | h
      · rcases h with ⟨x, hx, hxe⟩
        exact hnd.2.2.1 x hx hxe
      · exact hnd.2.1.1 h.symm
      · exact hNew.2.2.1 h.symm
    refine ⟨?_, ?_, ?_, ?_⟩
    · rw [hk2]
      simp only [List.drop_succ_cons, List.drop_zero, List.cons_append]
      exact hput1
    · rw [hk2]
      simp only [List.drop_succ_cons, List.drop_zero, List.cons_append]
      exact hput2
    · rw [hk2]
      simp only [List.drop_succ_cons, List.drop_zero, cacheContainsKey]
      rw [hlook2]
      rfl
    · rw [hk2, hk3]
      simp only [List.drop_succ_cons, List.drop_zero, cacheContainsKey]
      rw [lookupKey_eq_none_of_not_mem _ _ hc_not3]
      rfl

/-- Witness for C5 at capacity 2 with keys `k1`, `k2`, `k3` and fresh key `k4`. -/
theorem cache_fifo_with_refresh_witness :
    foldPutsKey ⟨2, []⟩ [("k1", "a"), ("k2", "b"), ("k3", "c")]
      = some ⟨2, [("k2", "b"), ("k3", "c")]⟩
    ∧ cachePutKey ⟨2, [("k2", "b"), ("k3", "c")]⟩ "k2" "B"
      = some ⟨2, [("k3", "c"), ("k2", "B")]⟩
    ∧ cachePutKey ⟨2, [("k3", "c"), ("k2", "B")]⟩ "k4" "d"
      = some ⟨2, [("k2", "B"), ("k4", "d")]⟩
    ∧ cacheContainsKey ⟨2, [("k2", "B"), ("k4", "d")]⟩ "k2" = true
    ∧ cacheContainsKey ⟨2, [("k2", "B"), ("k4", "d")]⟩ "k3" = false := by
  have h := cache_fifo_with_refresh 2 (by decide)
    [("k1", "a"), ("k2", "b"), ("k3", "c")] (by decide) (by decide)
  have h2 := h.2 (by decide) "B" "k4" "d" (by decide)
  exact ⟨h.1, h2.1, h2.2.1, h2.2.2.1, h2.2.2.2⟩

/-! ### C10: the cache key is only the resolved path -/

lemma mem_keysOf_removeKey {l : List (String × String)} {k a : String}
    (h : a ∈ keysOf (removeKey l k)) : a ∈ keysOf l := by
  induction l with
  | nil => simpa [removeKey] using h
  | cons e rest ih =>
    by_cases he : e.1 = k
    · simp only [removeKey, he, if_true] at h
      rw [keysOf_cons]
      exact List.mem_cons_of_mem _ h
    · simp only [removeKey, he, if_false, keysOf_cons, List.mem_cons] at h ⊢
      rcases h with h | h
      · exact Or.inl h
      · exact Or.inr (ih h)

lemma keysOf_removeKey_nodup {l : List (String × String)} {k : String}
    (h : (keysOf l).Nodup) : (keysOf (removeKey l k)).Nodup := by
  induction l with
  | nil => simpa [removeKey] using h
  | cons e rest ih =>
    rw [keysOf_cons, List.nodup_cons] at h
    by_cases he : e.1 = k
    · simp only [removeKey, he, if_true]
      exact h.2
    · simp only [removeKey, he, if_false, keysOf_cons, List.nodup_cons]
      exact ⟨fun hmem => h.1 (mem_keysOf_removeKey hmem), ih h.2⟩

lemma not_mem_keysOf_removeKey {l : List (String × String)} {k : String}
    (h : (keysOf l).Nodup) : k ∉ keysOf (removeKey l k) := by
  induction l with
  | nil => simp [removeKey, keysOf]
  | cons e rest ih =>
    rw [keysOf_cons, List.nodup_cons] at h
    by_cases he : e.1 = k
    · simp only [removeKey, he, if_true]
      exact he ▸ h.1
    · simp only [removeKey, he, if_false, keysOf_cons, List.mem_cons]
      push_neg
      exact ⟨fun hk => he hk.symm, ih h.2⟩

lemma nodup_keys_append_singleton (E : List (String × String)) (k v : String)
    (h1 : (keysOf E).Nodup) (h2 : k ∉ keysOf E) :
    (keysOf (E ++ [(k, v)])).Nodup := by
  rw [keysOf_append]
  refine List.Nodup.append h1 (List.nodup_singleton k) ?_
  intro a ha hb
  have : a = k := by simpa [keysOf] using hb
  exact h2 (this ▸ ha)

/-- On a well-formed cache of positive capacity, `put` always succeeds
and leaves the cache as some duplicate-free prefix (not containing the
key) followed by the freshly appended entry. -/
lemma cachePutKey_char (c : ThumbnailCache) (k v : String)
    (hnd : (keysOf c.entries).Nodup) (hm : 1 ≤ c.maxSize) :
    ∃ E, cachePutKey c k v = some ⟨c.maxSize, E ++ [(k, v)]⟩
      ∧ k ∉ keysOf E ∧ (keysOf E).Nodup := by
  have hk0 : k ∉ keysOf (removeKey c.entries k) := not_mem_keysOf_removeKey hnd
  have hnd0 : (keysOf (removeKey c.entries k)).Nodup := keysOf_removeKey_nodup hnd
  by_cases hc : c.maxSize ≤ (removeKey c.entries k).length
  · rcases he : removeKey c.entries k with _ | ⟨e, tl⟩
    · rw [he] at hc
      simp only [List.length_nil] at hc
      omega
    · refine ⟨tl, ?_, ?_, ?_⟩
      · simp only [cachePutKey, he]
        rw [if_pos (he ▸ hc)]
      · rw [he, keysOf_cons] at hk0
        exact fun hmem => hk0 (List.mem_cons_of_mem _ hmem)
      · rw [he, keysOf_cons, List.nodup_cons] at hnd0
        exact hnd0.2
  · refine ⟨removeKey c.entries k, ?_, hk0, hnd0⟩
    simp only [cachePutKey]
    rw [if_neg hc]

/-- C10: the cache key is only the resolved (canonical) path — `get` and
`put` take no size parameter, and the key computed in both is
`str(image_path.resolve())`.  Hence for any two stored values `v1`, `v2`
(whatever pixel dimensions they encode), `put p v1` then `put p v2`
followed by `get q` for any path `q` resolving to the same canonical
path returns `v2`: a thumbnail cached at one requested size is served
for any other requested size of the same file. -/
theorem cache_key_is_resolved_path_only (resolve : FsPath → String)
    (c : ThumbnailCache) (p q : FsPath) (v1 v2 : String)
    (hnd : (keysOf c.entries).Nodup) (hm : 1 ≤ c.maxSize)
    (hpq : resolve q = resolve p) :
    ∃ c1 c2, ThumbnailCache.put resolve c p v1 = some c1
      ∧ ThumbnailCache.put resolve c1 p v2 = some c2
      ∧ ThumbnailCache.get resolve c2 q = some v2 := by
  obtain ⟨E1, h1, hk1, hnd1⟩ := cachePutKey_char c (resolve p) v1 hnd hm
  have hndc1 : (keysOf (E1 ++ [(resolve p, v1)])).Nodup :=
    nodup_keys_append_singleton E1 (resolve p) v1 hnd1 hk1
  obtain ⟨E2, h2, hk2, hnd2⟩ :=
    cachePutKey_char ⟨c.maxSize, E1 ++ [(resolve p, v1)]⟩ (resolve p) v2 hndc1 hm
  refine ⟨⟨c.maxSize, E1 ++ [(resolve p, v1)]⟩,
    ⟨c.maxSize, E2 ++ [(resolve p, v2)]⟩, h1, h2, ?_⟩
  show cacheGetKey _ (resolve q) = some v2
  rw [hpq]
  show lookupKey (E2 ++ [(resolve p, v2)]) (resolve p) = some v2
  rw [lookupKey_append E2 _ (resolve p) hk2]
  simp [lookupKey]

/-- Witness for C10: a fresh cache of capacity 200, one path stored at
two different sizes, read back. -/
theorem cache_key_is_resolved_path_only_witness :
    ∃ c1 c2, ThumbnailCache.put (fun s => s) ⟨200, []⟩ "/a/img.png" "small80" = some c1
      ∧ ThumbnailCache.put (fun s => s) c1 "/a/img.png" "grid150" = some c2
      ∧ ThumbnailCache.get (fun s => s) c2 "/a/img.png" = some "grid150" :=
  cache_key_is_resolved_path_only (fun s => s) ⟨200, []⟩ "/a/img.png" "/a/img.png"
    "small80" "grid150" (by simp [keysOf]) (by decide) rfl

/-! ## Pagination / Batch Loader (`src/services/image_service.py`)

`list_images_in_folder_batch` iterates `folder.iterdir()`.  We embed a
directory listing as a list of entries in iteration order; each entry
carries the observations the loop makes of the file system and of the
Python string library: `name` (the sort key), the value of
`file.name.startswith('.')`, the value of `file.is_file()`, and the
value of `file.suffix.lower()`.  A failing enumeration (any I/O error
caught by the `except Exception` block) is embedded as the
`Except.error` input case, since the handler discards all partial loop
state. -/

/-- One directory entry as observed by the scan loop. -/
structure DirEntry where
  name : String
  isHiddenName : Bool
  isFile : Bool
  suffixLower : String
deriving DecidableEq, Repr

/-- Loop state of `list_images_in_folder_batch`: `images`, `skipped`,
`collected`, `stopped_early`. -/
structure ScanState where
  images : List DirEntry
  skipped : Nat
  collected : Nat
  stoppedEarly : Bool
deriving DecidableEq, Repr

/-- The `for file in folder.iterdir()` loop, statement by statement:
skip hidden names, skip non-files and unsupported suffixes, skip the
first `offset` qualifying entries, collect, and break once `collected
>= limit`. -/
def scanLoop (fmts : List String) (offset limit : Nat) :
    List DirEntry → ScanState → ScanState
  | [], s => s
  | e :: rest, s =>
    if e.isHiddenName then
      scanLoop fmts offset limit rest s
    else if !e.isFile || !(fmts.contains e.suffixLower) then
      scanLoop fmts offset limit rest s
    else if s.skipped < offset then
      scanLoop fmts offset limit rest { s with skipped := s.skipped + 1 }
    else
      let s1 := { s with images := s.images ++ [e], collected := s.collected + 1 }
      if limit ≤ s1.collected then
        { s1 with stoppedEarly := true }
      else
        scanLoop fmts offset limit rest s1

/-- Comparison used by `images.sort(key=lambda x: x.name.lower())`. -/
def nameLeBool (a b : DirEntry) : Bool :=
  decide (a.name.toLower ≤ b.name.toLower)

/-- Stable insertion used to embed the ascending sort. -/
def insertSorted (e : DirEntry) : List DirEntry → List DirEntry
  | [] => [e]
  | x :: xs => if nameLeBool e x then e :: x :: xs else x :: insertSorted e xs

/-- Embedding of the in-place ascending stable sort by `name.lower()`. -/
def sortByName : List DirEntry → List DirEntry
  | [] => []
  | e :: rest => insertSorted e (sortByName rest)

/-- Result record `ImageBatchResult`; the `offset` field is the
next-batch starting offset, as in the source dataclass. -/
structure ImageBatchResult where
  images : List DirEntry
  totalCount : Nat
  hasMore : Bool
  offset : Nat
deriving DecidableEq, Repr

/-- Embedding of `list_images_in_folder_batch`.  On a successful
enumeration: run the loop from the empty state, sort the collected
images, and return `(images, offset + collected, stopped_early,
offset + collected)`.  On any enumeration error the `except` handler
returns `ImageBatchResult([], 0, False, offset)`. -/
def list_images_in_folder_batch (fmts : List String)
    (dir : Except String (List DirEntry)) (offset limit : Nat) :
    ImageBatchResult :=
  match dir with
  | .ok entries =>
    let s := scanLoop fmts offset limit entries ⟨[], 0, 0, false⟩
    { images := sortByName s.images
      totalCount := offset + s.collected
      hasMore := s.stoppedEarly
      offset := offset + s.collected }
  | .error _ =>
    { images := [], totalCount := 0, hasMore := false, offset := offset }

/-- Qualification predicate of the scan: not hidden, a regular file,
suffix (lowercased) in the supported list. -/
def qualifies (fmts : List String) (e : DirEntry) : Bool :=
  !e.isHiddenName && (e.isFile && fmts.contains e.suffixLower)

/-- Number of qualifying entries of a directory listing. -/
def qualCount (fmts : List String) (l : List DirEntry) : Nat :=
  (l.filter (qualifies fmts)).length

lemma length_insertSorted (e : DirEntry) (l : List DirEntry) :
    (insertSorted e l).length = l.length + 1 := by
  induction l with
  | nil => simp [insertSorted]
  | cons x xs ih =>
    rw [insertSorted]
    split
    · simp
    · simp [ih]

lemma length_sortByName (l : List DirEntry) :
    (sortByName l).length = l.length := by
  induction l with
  | nil => rfl
  | cons e rest ih =>
    simp only [sortByName, length_insertSorted, ih, List.length_cons]

/-- The collected-image list always has length `collected` minus the
starting count, independently of `limit`. -/
lemma scanLoop_images_length (fmts : List String) (offset limit : Nat) :
    ∀ (entries : List DirEntry) (s : ScanState),
      s.images.length = s.collected →
      ((scanLoop fmts offset limit entries s).images.length
        = (scanLoop fmts offset limit entries s).collected) := by
  intro entries
  induction entries with
  | nil => intro s hs; exact hs
  | cons e rest ih =>
    intro s hs
    rw [scanLoop]
    split
    · exact ih s hs
    · split
      · exact ih s hs
      · split
        · exact ih _ hs
        · dsimp only
          split
          · simp only [List.length_append, List.length_cons, List.length_nil, hs]
          · apply ih
            simp only [List.length_append, List.length_cons, List.length_nil, hs]

lemma qualCount_cons_false {fmts : List String} {e : DirEntry}
    (rest : List DirEntry) (hq : qualifies fmts e = false) :
    qualCount fmts (e :: rest) = qualCount fmts rest := by
  simp [qualCount, List.filter_cons, hq]

lemma qualCount_cons_true {fmts : List String} {e : DirEntry}
    (rest : List DirEntry) (hq : qualifies fmts e = true) :
    qualCount fmts (e :: rest) = qualCount fmts rest + 1 := by
  simp [qualCount, List.filter_cons, hq]

/-- Loop characterization: starting from a not-yet-stopped state that is
still below `limit` and has not finished skipping, the final collected
count is `min limit` of the qualifying entries available after the
remaining skip, and the early-stop flag is set exactly when `limit` many
could be collected. -/
lemma scanLoop_spec (fmts : List String) (offset limit : Nat) :
    ∀ (entries : List DirEntry) (s : ScanState),
      s.stoppedEarly = false → s.collected < limit → s.skipped ≤ offset →
      ((scanLoop fmts offset limit entries s).collected
          = min limit (s.collected + (qualCount fmts entries - (offset - s.skipped)))
        ∧ ((scanLoop fmts offset limit entries s).stoppedEarly = true
            ↔ limit ≤ s.collected + (qualCount fmts entries - (offset - s.skipped)))) := by
  intro entries
  induction entries with
  | nil =>
    intro s hse hcl hsk
    refine ⟨?_, ?_⟩
    · simp only [scanLoop, qualCount, List.filter_nil, List.length_nil]
      omega
    · simp only [scanLoop, qualCount, List.filter_nil, List.length_nil, hse]
      constructor
      · intro h
        exact absurd h (by simp)
      · intro h
        omega
  | cons e rest ih =>
    intro s hse hcl hsk
    rw [scanLoop]
    split
    · next h1 =>
      have hq : qualifies fmts e = false := by
        simp [qualifies, h1]
      rw [qualCount_cons_false rest hq]
      exact ih s hse hcl hsk
    · split
      · next h1 h2 =>
        have hq : qualifies fmts e = false := by
          simp only [qualifies]
          revert h1 h2
          cases e.isHiddenName <;>
            cases e.isFile <;>
              cases fmts.contains e.suffixLower <;> simp
        rw [qualCount_cons_false rest hq]
        exact ih s hse hcl hsk
      · next h1 h2 =>
        have hq : qualifies fmts e = true := by
          simp only [qualifies]
          revert h1 h2
          cases e.isHiddenName <;>
            cases e.isFile <;>
              cases fmts.contains e.suffixLower <;> simp
        rw [qualCount_cons_true rest hq]
        split
        · next h3 =>
          have hrec2 : (scanLoop fmts offset limit rest
                { s with skipped := s.skipped + 1 }).collected
              = min limit (s.collected
                  + (qualCount fmts rest - (offset - (s.skipped + 1))))
            ∧ ((scanLoop fmts offset limit rest
                { s with skipped := s.skipped + 1 }).stoppedEarly = true
              ↔ limit ≤ s.collected
                  + (qualCount fmts rest - (offset - (s.skipped + 1)))) :=
            ih _ hse hcl (by show s.skipped + 1 ≤ offset; omega)
          have harith : qualCount fmts rest - (offset - (s.skipped + 1))
              = qualCount fmts rest + 1 - (offset - s.skipped) := by
            omega
          rw [harith] at hrec2
          exact hrec2
        · next h3 =>
          have hz : offset - s.skipped = 0 := by omega
          dsimp only
          split
          · next h4 =>
            have h4a : limit ≤ s.collected + 1 := h4
            refine ⟨?_, ?_⟩
            · show s.collected + 1
                = min limit (s.collected
                    + (qualCount fmts rest + 1 - (offset - s.skipped)))
              rw [hz]
              omega
            · constructor
              · intro _
                rw [hz]
                omega
              · intro _
                rfl
          · next h4 =>
            have h4a : ¬ limit ≤ s.collected + 1 := h4
            have hrec2 : (scanLoop fmts offset limit rest
                  { s with images := s.images ++ [e], collected := s.collected + 1 }).collected
                = min limit ((s.collected + 1)
                    + (qualCount fmts rest - (offset - s.skipped)))
              ∧ ((scanLoop fmts offset limit rest
                  { s with images := s.images ++ [e], collected := s.collected + 1 }).stoppedEarly = true
                ↔ limit ≤ (s.collected + 1)
                    + (qualCount fmts rest - (offset - s.skipped))) :=
              ih _ hse (by show s.collected + 1 < limit; omega)
                (by show s.skipped ≤ offset; exact hsk)
            have harith : (s.collected + 1)
                  + (qualCount fmts rest - (offset - s.skipped))
                = s.collected
                  + (qualCount fmts rest + 1 - (offset - s.skipped)) := by
              rw [hz]
              omega
            rw [harith] at hrec2
            exact hrec2

/-- C7 (amended: `limit ≥ 1`): the scan returns at most `limit` images,
and `has_more` is true exactly when the scan hit `limit`, i.e. when at
least `offset + limit` qualifying entries exist in the directory
listing — the break fires as the `limit`-th entry is collected, whether
or not entries remain behind it.  (For `limit = 0` the claim fails: the
break check runs only after a collect, so one image is returned; see
the counterexample.) -/
theorem scan_batch_limit_and_hasMore (fmts : List String)
    (entries : List DirEntry) (offset limit : Nat) (hl : 1 ≤ limit) :
    ((list_images_in_folder_batch fmts (.ok entries) offset limit).images.length ≤ limit)
    ∧ ((list_images_in_folder_batch fmts (.ok entries) offset limit).hasMore = true
        ↔ offset + limit ≤ qualCount fmts entries) := by
  have hspec := scanLoop_spec fmts offset limit entries ⟨[], 0, 0, false⟩ rfl
    (by show 0 < limit; omega) (by show 0 ≤ offset; omega)
  have hc : (scanLoop fmts offset limit entries ⟨[], 0, 0, false⟩).collected
      = min limit (0 + (qualCount fmts entries - (offset - 0))) := hspec.1
  have hm : ((scanLoop fmts offset limit entries ⟨[], 0, 0, false⟩).stoppedEarly = true
      ↔ limit ≤ 0 + (qualCount fmts entries - (offset - 0))) := hspec.2
  have hlen1 : (scanLoop fmts offset limit entries ⟨[], 0, 0, false⟩).images.length
      = (scanLoop fmts offset limit entries ⟨[], 0, 0, false⟩).collected :=
    scanLoop_images_length fmts offset limit entries ⟨[], 0, 0, false⟩ rfl
  refine ⟨?_, ?_⟩
  · show (sortByName (scanLoop fmts offset limit entries ⟨[], 0, 0, false⟩).images).length
      ≤ limit
    rw [length_sortByName, hlen1]
    omega
  · show ((scanLoop fmts offset limit entries ⟨[], 0, 0, false⟩).stoppedEarly = true
      ↔ offset + limit ≤ qualCount fmts entries)
    rw [hm]
    omega

/-- Witness for C7 (amended): three qualifying files, `offset = 1`,
`limit = 2`: at most two images and `has_more` exactly when
`1 + 2 ≤ 3`. -/
theorem scan_batch_limit_and_hasMore_witness :
    ((list_images_in_folder_batch [".jpg"]
        (.ok [⟨"a.jpg", false, true, ".jpg"⟩, ⟨"b.jpg", false, true, ".jpg"⟩,
              ⟨"c.jpg", false, true, ".jpg"⟩]) 1 2).images.length ≤ 2)
    ∧ ((list_images_in_folder_batch [".jpg"]
        (.ok [⟨"a.jpg", false, true, ".jpg"⟩, ⟨"b.jpg", false, true, ".jpg"⟩,
              ⟨"c.jpg", false, true, ".jpg"⟩]) 1 2).hasMore = true
        ↔ 1 + 2 ≤ qualCount [".jpg"]
            [⟨"a.jpg", false, true, ".jpg"⟩, ⟨"b.jpg", false, true, ".jpg"⟩,
             ⟨"c.jpg", false, true, ".jpg"⟩]) :=
  scan_batch_limit_and_hasMore [".jpg"]
    [⟨"a.jpg", false, true, ".jpg"⟩, ⟨"b.jpg", false, true, ".jpg"⟩,
     ⟨"c.jpg", false, true, ".jpg"⟩] 1 2 (by omega)

/-- Counterexample to C7 as stated (quantifying over every `limit`): at
`limit = 0` with one qualifying file the scan still returns one image,
because the `collected >= limit` break is checked only after appending;
so "at most `limit` images" fails. -/
theorem scan_batch_limit_zero_cex :
    ¬ ((list_images_in_folder_batch [".jpg"]
        (.ok [⟨"a.jpg", false, true, ".jpg"⟩]) 0 0).images.length ≤ 0) := by
  decide

/-- C9: if the directory enumeration fails with any error, the function
returns (rather than raising) the record `([], 0, false, offset)` — the
images list is empty and `has_more` is false.  The caller's state is
untouched because the function communicates only through this return
value. -/
theorem scan_batch_error_empty (fmts : List String) (msg : String)
    (offset limit : Nat) :
    list_images_in_folder_batch fmts (.error msg) offset limit
      = { images := [], totalCount := 0, hasMore := false, offset := offset } :=
  rfl

/-- C8 (amended): every result record satisfies
`next_offset = offset + len(images)`; the success path also satisfies
`total_count = offset + len(images)`, but the error record has
`total_count = 0` (not `offset + 0` — the handler hardcodes `0`). -/
theorem scan_batch_offset_invariant (fmts : List String)
    (dir : Except String (List DirEntry)) (offset limit : Nat) :
    ((list_images_in_folder_batch fmts dir offset limit).offset
      = offset + (list_images_in_folder_batch fmts dir offset limit).images.length)
    ∧ (∀ entries, dir = Except.ok entries →
        (list_images_in_folder_batch fmts dir offset limit).totalCount
          = offset + (list_images_in_folder_batch fmts dir offset limit).images.length)
    ∧ (∀ msg, dir = Except.error msg →
        (list_images_in_folder_batch fmts dir offset limit).totalCount = 0) := by
  rcases dir with msg | entries
  · refine ⟨?_, ?_, ?_⟩
    · show offset = offset + ([] : List DirEntry).length
      simp
    · intro entries h
      cases h
    · intro msg2 h
      rfl
  · have hlen1 : (scanLoop fmts offset limit entries ⟨[], 0, 0, false⟩).images.length
        = (scanLoop fmts offset limit entries ⟨[], 0, 0, false⟩).collected :=
      scanLoop_images_length fmts offset limit entries ⟨[], 0, 0, false⟩ rfl
    have hshow : (list_images_in_folder_batch fmts (.ok entries) offset limit).images.length
        = (scanLoop fmts offset limit entries ⟨[], 0, 0, false⟩).collected := by
      show (sortByName (scanLoop fmts offset limit entries ⟨[], 0, 0, false⟩).images).length
        = (scanLoop fmts offset limit entries ⟨[], 0, 0, false⟩).collected
      rw [length_sortByName, hlen1]
    refine ⟨?_, ?_, ?_⟩
    · rw [hshow]
      rfl
    · intro entries2 h
      cases h
      rw [hshow]
      rfl
    · intro msg h
      cases h

/-- Witness for C8 (amended) at the error record with `offset = 5`. -/
theorem scan_batch_offset_invariant_witness :
    ((list_images_in_folder_batch [".jpg"] (.error "denied") 5 10).offset
      = 5 + (list_images_in_folder_batch [".jpg"] (.error "denied") 5 10).images.length)
    ∧ (list_images_in_folder_batch [".jpg"] (.error "denied") 5 10).totalCount = 0 := by
  have h := scan_batch_offset_invariant [".jpg"] (.error "denied") 5 10
  exact ⟨h.1, h.2.2 "denied" rfl⟩

/-- Counterexample to C8 as stated: the record returned on a scan error
with `offset = 5` has `total_count = 0`, not
`offset + len(images) = 5`. -/
theorem scan_batch_error_total_count_cex :
    ¬ ((list_images_in_folder_batch [".jpg"] (.error "denied") 5 10).totalCount
        = 5 + (list_images_in_folder_batch [".jpg"]
            (.error "denied") 5 10).images.length) := by
  decide

/-! ## Async Thumbnail Service (`src/services/async_thumbnail_service.py`)

`generate_thumbnails_async` records a fresh `task_id` in
`self.current_task_id`, resets the per-submission closure counters, and
submits one `process_single_image` unit per image; each unit gets
`on_future_done` as its done-callback, and a final `wait_all_complete`
monitor joins every future before acting.  `cancel_current_task` clears
`self.current_task_id`.

The handlers hold no lock, so the embedding is a transition system at
the granularity of individual statements: the `current_task_id` test of
a completion handler, the guarded callback invocation, the load and the
store of the unsynchronized `completed_count += 1`, and the monitor test
and call are separate atomic actions, and a trace may interleave
submissions, cancellations, and the actions of different handlers
arbitrarily.  Each handler executes its own statements in program order
and at most once; the thread-local outcome of a passed check is kept in
a per-handler pending register consumed and cleared by the matching call
action.  The decode performed inside a worker is an uninterpreted
function `decode : FsPath → Option String`; `none` covers both a falsy
return and a raised exception, which the worker catches.  The monitor
actions may occupy any trace position after the unit results exist: the
join waits only on `future.result()`, which CPython satisfies as soon
as a result is set — before the done callbacks of that future run.
-/

abbrev TaskId := Nat

/-- Embedding of the worker body `process_single_image`
(async_thumbnail_service.py lines 68-95), statement by statement: if
`self.current_task_id != task_id` the unit returns `None` without
touching the codec ("任务已取消，跳过图片"); otherwise it calls the codec
and returns `(index, data_uri, image_path)` on success or `None` on a
falsy result or an exception.  The second component records whether the
codec was invoked (whether control reached the `try` block). -/
def processSingleImage (current : Option TaskId) (taskId : TaskId)
    (decode : FsPath → Option String) (index : Nat) (imagePath : FsPath) :
    Option (Nat × String × FsPath) × Bool :=
  if current ≠ some taskId then (none, false)
  else
    match decode imagePath with
    | some dataUri => (some (index, dataUri, imagePath), true)
    | none => (none, true)

/-- Externally visible callback invocations, tagged with the task id of
the submission whose closure issues them. -/
inductive SvcCallback where
  | itemDone (taskId : TaskId) (index : Nat) (dataUri : String) (imagePath : FsPath)
  | progress (taskId : TaskId) (completedCount totalCount : Nat)
  | batchDone (taskId : TaskId)
deriving DecidableEq, Repr

/-- Batch a callback belongs to. -/
def cbTask : SvcCallback → TaskId
  | .itemDone t _ _ _ => t
  | .progress t _ _ => t
  | .batchDone t => t

def cbIsItemDone : SvcCallback → Bool
  | .itemDone _ _ _ _ => true
  | _ => false

def cbIsProgress : SvcCallback → Bool
  | .progress _ _ _ => true
  | _ => false

def cbIsBatchDone : SvcCallback → Bool
  | .batchDone _ => true
  | _ => false

/-- Pointwise update of a map keyed by task id. -/
def upd1 {α : Type} (f : TaskId → α) (t : TaskId) (v : α) : TaskId → α :=
  fun t2 => if t2 = t then v else f t2

/-- Pointwise update of a map keyed by task id and unit index. -/
def upd2 {α : Type} (f : TaskId → Nat → α) (t : TaskId) (uid : Nat) (v : α) :
    TaskId → Nat → α :=
  fun t2 u2 => if t2 = t ∧ u2 = uid then v else f t2 u2

/-- Shared service state plus per-handler thread-local registers:
`current_task_id`; for each submission closure (keyed by its unique task
id) the `total_count` and the shared `completed_count`; the value a
handler loaded from `completed_count` before its store (`readCount`);
and, for each handler, whether it passed its guard but has not yet
executed the guarded call (`itemPending`, carrying the payload to
deliver, `progPending`, `monPending`). -/
structure FineState where
  current : Option TaskId
  totals : TaskId → Nat
  completed : TaskId → Nat
  readCount : TaskId → Nat → Nat
  itemPending : TaskId → Nat → Option (Nat × String × FsPath)
  progPending : TaskId → Nat → Bool
  monPending : TaskId → Bool

/-- One atomic statement execution.  `submit` is the assignment
`self.current_task_id = task_id` together with the fresh closure state
of `generate_thumbnails_async`; `cancel` is `cancel_current_task`
clearing the marker; `itemCheck` and `itemCall` are the line 103 test
`result and self.current_task_id == task_id` and the line 106
`on_single_complete(...)` of the `on_future_done` handler of unit
`uid`, whose future holds `res` (what `process_single_image` returned);
`incrRead` and `incrWrite` are the load and the store of the
unsynchronized `completed_count += 1` (line 108); `progCheck` and
`progCall` are the line 111 test and the line 112 `on_progress(...)`;
`monCheck` and `monCall` are the line 131 test and the line 137
`on_all_complete()` of `wait_all_complete`. -/
inductive FineAction where
  | submit (taskId : TaskId) (total : Nat)
  | cancel
  | itemCheck (taskId : TaskId) (uid : Nat) (res : Option (Nat × String × FsPath))
  | itemCall (taskId : TaskId) (uid : Nat)
  | incrRead (taskId : TaskId) (uid : Nat)
  | incrWrite (taskId : TaskId) (uid : Nat)
  | progCheck (taskId : TaskId) (uid : Nat)
  | progCall (taskId : TaskId) (uid : Nat)
  | monCheck (taskId : TaskId)
  | monCall (taskId : TaskId)
deriving DecidableEq, Repr

/-- Effect of one statement: a check stores its outcome in the pending
register of its handler; the matching call consumes and clears it,
emitting the callback exactly when the check had passed; `progCall`
reads `completed_count` and `total_count` at call time, as the Python
argument expressions do. -/
def fineStep (s : FineState) : FineAction → FineState × List SvcCallback
  | .submit t total =>
      ({ s with current := some t, totals := upd1 s.totals t total, completed := upd1 s.completed t 0 }, [])
  | .cancel => ({ s with current := none }, [])
  | .itemCheck t uid res =>
      ({ s with itemPending := upd2 s.itemPending t uid (if res.isSome = true ∧ s.current = some t then res else none) }, [])
  | .itemCall t uid =>
      ({ s with itemPending := upd2 s.itemPending t uid none },
       match s.itemPending t uid with
       | some r => [SvcCallback.itemDone t r.1 r.2.1 r.2.2]
       | none => [])
  | .incrRead t uid =>
      ({ s with readCount := upd2 s.readCount t uid (s.completed t) }, [])
  | .incrWrite t uid =>
      ({ s with completed := upd1 s.completed t (s.readCount t uid + 1) }, [])
  | .progCheck t uid =>
      ({ s with progPending := upd2 s.progPending t uid (decide (s.current = some t)) }, [])
  | .progCall t uid =>
      ({ s with progPending := upd2 s.progPending t uid false },
       if s.progPending t uid then
         [SvcCallback.progress t (s.completed t) (s.totals t)]
       else [])
  | .monCheck t =>
      ({ s with monPending := upd1 s.monPending t (decide (s.current = some t)) }, [])
  | .monCall t =>
      ({ s with monPending := upd1 s.monPending t false },
       if s.monPending t then [SvcCallback.batchDone t] else [])

/-- Run a sequence of statement executions, collecting emitted
callbacks. -/
def fineRun (s : FineState) : List FineAction → FineState × List SvcCallback
  | [] => (s, [])
  | a :: rest =>
      ((fineRun (fineStep s a).1 rest).1,
        (fineStep s a).2 ++ (fineRun (fineStep s a).1 rest).2)

/-- Freshly constructed service: no current task, zeroed counters, no
handler mid-flight. -/
def fineInit : FineState :=
  ⟨none, fun _ => 0, fun _ => 0, fun _ _ => 0, fun _ _ => none,
   fun _ _ => false, fun _ => false⟩

lemma fineRun_append_fst (s : FineState) (xs ys : List FineAction) :
    (fineRun s (xs ++ ys)).1 = (fineRun (fineRun s xs).1 ys).1 := by
  induction xs generalizing s with
  | nil => rfl
  | cons a rest ih => simp only [List.cons_append, fineRun, List.append_eq, ih]

lemma fineRun_append_snd (s : FineState) (xs ys : List FineAction) :
    (fineRun s (xs ++ ys)).2
      = (fineRun s xs).2 ++ (fineRun (fineRun s xs).1 ys).2 := by
  induction xs generalizing s with
  | nil => rfl
  | cons a rest ih =>
    simp only [List.cons_append, fineRun, List.append_eq, ih, List.append_assoc]

/-- No completion handler of batch `b` (and no monitor of `b`) is
currently between a passed `current_task_id` check and the callback
invocation that check guards. -/
def cleanPendingFor (b : TaskId) (s : FineState) : Prop :=
  (∀ uid, s.itemPending b uid = none)
  ∧ (∀ uid, s.progPending b uid = false)
  ∧ s.monPending b = false

/-- While the current task differs from `b` and no `b`-handler is
mid-flight, a single statement that is not a resubmission of `b` keeps
it that way and emits no callback tagged `b`. -/
lemma fineStep_no_foreign (s : FineState) (a : FineAction) (b : TaskId)
    (hcur : s.current ≠ some b) (hclean : cleanPendingFor b s)
    (ha : ∀ total, a ≠ FineAction.submit b total) :
    (fineStep s a).1.current ≠ some b
    ∧ cleanPendingFor b (fineStep s a).1
    ∧ ∀ cb ∈ (fineStep s a).2, cbTask cb ≠ b := by
  cases a with
  | submit t total =>
    have htb : t ≠ b := by
      intro h
      exact ha total (by rw [h])
    refine ⟨?_, hclean, ?_⟩
    · show some t ≠ some b
      simp [htb]
    · intro cb hcb
      simp [fineStep] at hcb
  | cancel =>
    refine ⟨?_, hclean, ?_⟩
    · show (none : Option TaskId) ≠ some b
      simp
    · intro cb hcb
      simp [fineStep] at hcb
  | itemCheck t uid res =>
    refine ⟨hcur, ⟨?_, hclean.2.1, hclean.2.2⟩, ?_⟩
    · intro u2
      show upd2 s.itemPending t uid _ b u2 = none
      by_cases htb : b = t
      · subst htb
        by_cases hu : u2 = uid
        · subst hu
          simp only [upd2, and_self, if_true]
          rw [if_neg]
          rintro ⟨_, h2⟩
          exact hcur h2
        · simp only [upd2, hu, and_false, if_false]
          exact hclean.1 u2
      · simp only [upd2, htb, false_and, if_false]
        exact hclean.1 u2
    · intro cb hcb
      simp [fineStep] at hcb
  | itemCall t uid =>
    refine ⟨hcur, ⟨?_, hclean.2.1, hclean.2.2⟩, ?_⟩
    · intro u2
      show upd2 s.itemPending t uid none b u2 = none
      by_cases htb : b = t
      · subst htb
        by_cases hu : u2 = uid
        · subst hu
          simp [upd2]
        · simp only [upd2, hu, and_false, if_false]
          exact hclean.1 u2
      · simp only [upd2, htb, false_and, if_false]
        exact hclean.1 u2
    · intro cb hcb
      by_cases htb : t = b
      · subst htb
        rw [show (fineStep s (FineAction.itemCall t uid)).2
            = (match s.itemPending t uid with
               | some r => [SvcCallback.itemDone t r.1 r.2.1 r.2.2]
               | none => []) from rfl, hclean.1 uid] at hcb
        simp at hcb
      · rcases hres : s.itemPending t uid with _ | r
        · rw [show (fineStep s (FineAction.itemCall t uid)).2
              = (match s.itemPending t uid with
                 | some r => [SvcCallback.itemDone t r.1 r.2.1 r.2.2]
                 | none => []) from rfl, hres] at hcb
          simp at hcb
        · rw [show (fineStep s (FineAction.itemCall t uid)).2
              = (match s.itemPending t uid with
                 | some r => [SvcCallback.itemDone t r.1 r.2.1 r.2.2]
                 | none => []) from rfl, hres] at hcb
          simp only [List.mem_singleton] at hcb
          subst hcb
          exact htb
  | incrRead t uid =>
    refine ⟨hcur, hclean, ?_⟩
    intro cb hcb
    simp [fineStep] at hcb
  | incrWrite t uid =>
    refine ⟨hcur, hclean, ?_⟩
    intro cb hcb
    simp [fineStep] at hcb
  | progCheck t uid =>
    refine ⟨hcur, ⟨hclean.1, ?_, hclean.2.2⟩, ?_⟩
    · intro u2
      show upd2 s.progPending t uid _ b u2 = false
      by_cases htb : b = t
      · subst htb
        by_cases hu : u2 = uid
        · subst hu
          simp only [upd2, and_self, if_true]
          exact decide_eq_false hcur
        · simp only [upd2, hu, and_false, if_false]
          exact hclean.2.1 u2
      · simp only [upd2, htb, false_and, if_false]
        exact hclean.2.1 u2
    · intro cb hcb
      simp [fineStep] at hcb
  | progCall t uid =>
    refine ⟨hcur, ⟨hclean.1, ?_, hclean.2.2⟩, ?_⟩
    · intro u2
      show upd2 s.progPending t uid false b u2 = false
      by_cases htb : b = t
      · subst htb
        by_cases hu : u2 = uid
        · subst hu
          simp [upd2]
        · simp only [upd2, hu, and_false, if_false]
          exact hclean.2.1 u2
      · simp only [upd2, htb, false_and, if_false]
        exact hclean.2.1 u2
    · intro cb hcb
      by_cases htb : t = b
      · subst htb
        rw [show (fineStep s (FineAction.progCall t uid)).2
            = (if s.progPending t uid then
                [SvcCallback.progress t (s.completed t) (s.totals t)]
              else []) from rfl, hclean.2.1 uid] at hcb
        simp at hcb
      · rw [show (fineStep s (FineAction.progCall t uid)).2
            = (if s.progPending t uid then
                [SvcCallback.progress t (s.completed t) (s.totals t)]
              else []) from rfl] at hcb
        rcases hp : s.progPending t uid
        · rw [hp] at hcb
          simp at hcb
        · rw [hp] at hcb
          simp only [if_true, List.mem_singleton] at hcb
          subst hcb
          exact htb
  | monCheck t =>
    refine ⟨hcur, ⟨hclean.1, hclean.2.1, ?_⟩, ?_⟩
    · show upd1 s.monPending t _ b = false
      by_cases htb : b = t
      · subst htb
        simp only [upd1, if_pos rfl]
        exact decide_eq_false hcur
      · simp only [upd1, htb, if_false]
        exact hclean.2.2
    · intro cb hcb
      simp [fineStep] at hcb
  | monCall t =>
    refine ⟨hcur, ⟨hclean.1, hclean.2.1, ?_⟩, ?_⟩
    · show upd1 s.monPending t false b = false
      by_cases htb : b = t
      · subst htb
        simp [upd1]
      · simp only [upd1, htb, if_false]
        exact hclean.2.2
    · intro cb hcb
      by_cases htb : t = b
      · subst htb
        rw [show (fineStep s (FineAction.monCall t)).2
            = (if s.monPending t then [SvcCallback.batchDone t] else [])
            from rfl, hclean.2.2] at hcb
        simp at hcb
      · rw [show (fineStep s (FineAction.monCall t)).2
            = (if s.monPending t then [SvcCallback.batchDone t] else [])
            from rfl] at hcb
        rcases hp : s.monPending t
        · rw [hp] at hcb
          simp at hcb
        · rw [hp] at hcb
          simp only [if_true, List.mem_singleton] at hcb
          subst hcb
          exact htb

/-- Run-level closure of `fineStep_no_foreign`. -/
lemma fineRun_no_foreign (b : TaskId) (acts : List FineAction) :
    ∀ s : FineState, s.current ≠ some b → cleanPendingFor b s →
      (∀ total, FineAction.submit b total ∉ acts) →
      ((fineRun s acts).1.current ≠ some b
        ∧ cleanPendingFor b (fineRun s acts).1
        ∧ ∀ cb ∈ (fineRun s acts).2, cbTask cb ≠ b) := by
  induction acts with
  | nil =>
    intro s hcur hclean _
    exact ⟨hcur, hclean, by simp [fineRun]⟩
  | cons a rest ih =>
    intro s hcur hclean hacts
    have ha : ∀ total, a ≠ FineAction.submit b total := by
      intro total h
      exact hacts total (by rw [← h]; exact List.mem_cons_self a rest)
    have hrest : ∀ total, FineAction.submit b total ∉ rest :=
      fun total h => hacts total (List.mem_cons_of_mem _ h)
    have hstep := fineStep_no_foreign s a b hcur hclean ha
    have hrec := ih (fineStep s a).1 hstep.1 hstep.2.1 hrest
    refine ⟨hrec.1, hrec.2.1, ?_⟩
    intro cb hcb
    have hcb2 : cb ∈ (fineStep s a).2 ++ (fineRun (fineStep s a).1 rest).2 := hcb
    rcases List.mem_append.1 hcb2 with h | h
    · exact hstep.2.2 cb h
    · exact hrec.2.2 cb h

/-- C2 (amended): after a new batch is submitted (fresh id `b2 ≠ b1`)
or `cancel_current` runs, no `on_item_done`, `on_batch_done`, or
`on_progress` callback of the superseded batch `b1` is ever invoked by
a handler that reaches its `current_task_id` check after that point —
provided no `b1` handler is, at the supersession instant, already past
a passed check and merely waiting to invoke the guarded callback
(`cleanPendingFor`), and `b1` is never submitted again (task ids are
fresh UUIDs, hypothesis `hpost`).  Without the proviso the original
claim is false — see the counterexample. -/
theorem superseded_callbacks_suppressed (s0 : FineState)
    (pre post : List FineAction) (a : FineAction) (b1 : TaskId)
    (ha : (∃ b2 total, a = FineAction.submit b2 total ∧ b2 ≠ b1)
      ∨ a = FineAction.cancel)
    (hclean : cleanPendingFor b1 (fineRun s0 (pre ++ [a])).1)
    (hpost : ∀ total, FineAction.submit b1 total ∉ post) :
    ∀ cb ∈ (fineRun (fineRun s0 (pre ++ [a])).1 post).2, cbTask cb ≠ b1 := by
  have hcur : (fineRun s0 (pre ++ [a])).1.current ≠ some b1 := by
    rw [fineRun_append_fst]
    rcases ha with ⟨b2, total, rfl, hne⟩ | rfl
    · show (some b2 : Option TaskId) ≠ some b1
      simp [hne]
    · show (none : Option TaskId) ≠ some b1
      simp
  exact (fineRun_no_foreign b1 post (fineRun s0 (pre ++ [a])).1 hcur hclean
    hpost).2.2

/-- Witness for C2 (amended): no batch-1 handler is mid-flight when
batch 2 supersedes batch 1; a batch-1 check performed afterwards
delivers nothing, batch-2 traffic proceeds, and the emitted callback is
not tagged 1. -/
theorem superseded_callbacks_suppressed_witness :
    cbTask (SvcCallback.itemDone 2 0 "u" "q") ≠ 1 :=
  superseded_callbacks_suppressed fineInit [FineAction.submit 1 1]
    [FineAction.itemCheck 1 0 (some (0, "x", "p")), FineAction.itemCall 1 0,
     FineAction.itemCheck 2 0 (some (0, "u", "q")), FineAction.itemCall 2 0]
    (FineAction.submit 2 1) 1
    (Or.inl ⟨2, 1, rfl, by decide⟩)
    ⟨fun uid => rfl, fun uid => rfl, rfl⟩
    (by intro total; simp)
    (SvcCallback.itemDone 2 0 "u" "q")
    (by decide)

/-- Counterexample to C2 as stated: the completion handler of batch 1
evaluates the line 103 test while batch 1 is still current; batch 2 is
submitted before line 106 runs — the source holds no lock, so this
interleaving is allowed — and the handler then delivers the batch-1
`on_item_done` strictly after the submission of batch 2.  The
post-supersession segment emits exactly the superseded-batch callback
that the claim says is never invoked. -/
theorem superseded_callback_leak_cex :
    (fineRun (fineRun fineInit
        [FineAction.submit 1 1, FineAction.itemCheck 1 0 (some (0, "u", "p")),
         FineAction.submit 2 1]).1
      [FineAction.itemCall 1 0]).2
      = [SvcCallback.itemDone 1 0 "u" "p"]
    ∧ cbTask (SvcCallback.itemDone 1 0 "u" "p") = 1 := by
  constructor
  · decide
  · rfl

/-- The six statements of one `on_future_done` execution, in program
order. -/
def unitHandler (t : TaskId) (uid : Nat)
    (res : Option (Nat × String × FsPath)) : List FineAction :=
  [FineAction.itemCheck t uid res, FineAction.itemCall t uid,
   FineAction.incrRead t uid, FineAction.incrWrite t uid,
   FineAction.progCheck t uid, FineAction.progCall t uid]

/-- Completion handlers executed one after another with no
interleaving: the serialized schedule. -/
def unitBlocks (t : TaskId) :
    List (Nat × Option (Nat × String × FsPath)) → List FineAction
  | [] => []
  | u :: rest => unitHandler t u.1 u.2 ++ unitBlocks t rest

/-- Effect of one uninterleaved `on_future_done` execution while its
batch is current: `completed_count` advances by one, the item callback
fires exactly for a successful decode, then one progress callback with
the incremented count. -/
lemma fineRun_unitHandler (s : FineState) (t : TaskId) (uid : Nat)
    (res : Option (Nat × String × FsPath)) (hcur : s.current = some t) :
    (fineRun s (unitHandler t uid res)).1.current = s.current
    ∧ (fineRun s (unitHandler t uid res)).1.totals = s.totals
    ∧ (fineRun s (unitHandler t uid res)).1.completed t = s.completed t + 1
    ∧ (fineRun s (unitHandler t uid res)).2
        = (match res with
           | some r => [SvcCallback.itemDone t r.1 r.2.1 r.2.2]
           | none => [])
          ++ [SvcCallback.progress t (s.completed t + 1) (s.totals t)] := by
  cases res with
  | none =>
    refine ⟨?_, ?_, ?_, ?_⟩ <;>
      simp [unitHandler, fineRun, fineStep, upd1, upd2, hcur]
  | some r =>
    refine ⟨?_, ?_, ?_, ?_⟩ <;>
      simp [unitHandler, fineRun, fineStep, upd1, upd2, hcur]

/-- Serialized handlers while current: no batch-done, one item callback
per success, and the progress sequence counts up one by one. -/
lemma fineRun_units (t : TaskId) (K : Nat)
    (us : List (Nat × Option (Nat × String × FsPath))) :
    ∀ s : FineState, s.current = some t → s.totals t = K →
      ((fineRun s (unitBlocks t us)).1.current = some t
        ∧ (fineRun s (unitBlocks t us)).1.totals t = K
        ∧ (fineRun s (unitBlocks t us)).2.filter cbIsBatchDone = []
        ∧ ((fineRun s (unitBlocks t us)).2.filter cbIsItemDone).length
            = us.countP (fun u => u.2.isSome)
        ∧ (fineRun s (unitBlocks t us)).2.filter cbIsProgress
            = (List.range us.length).map
                (fun j => SvcCallback.progress t (s.completed t + j + 1) K)) := by
  induction us with
  | nil =>
    intro s hcur htot
    refine ⟨hcur, htot, ?_, ?_, ?_⟩ <;> simp [unitBlocks, fineRun]
  | cons u rest ih =>
    intro s hcur htot
    have hblock := fineRun_unitHandler s t u.1 u.2 hcur
    have hcur1 : (fineRun s (unitHandler t u.1 u.2)).1.current = some t := by
      rw [hblock.1]
      exact hcur
    have htot1 : (fineRun s (unitHandler t u.1 u.2)).1.totals t = K := by
      rw [hblock.2.1]
      exact htot
    have hrec := ih (fineRun s (unitHandler t u.1 u.2)).1 hcur1 htot1
    rw [hblock.2.2.1] at hrec
    refine ⟨?_, ?_, ?_, ?_, ?_⟩
    · rw [unitBlocks, fineRun_append_fst]
      exact hrec.1
    · rw [unitBlocks, fineRun_append_fst]
      exact hrec.2.1
    · rw [unitBlocks, fineRun_append_snd, List.filter_append, hblock.2.2.2,
        hrec.2.2.1, List.filter_append]
      cases hres : u.2 with
      | none => simp [cbIsBatchDone]
      | some r => simp [cbIsBatchDone]
    · rw [unitBlocks, fineRun_append_snd, List.filter_append, List.length_append,
        hblock.2.2.2, hrec.2.2.2.1, List.filter_append, List.length_append,
        List.countP_cons]
      cases hres : u.2 with
      | none => simp [cbIsItemDone, cbIsProgress]
      | some r =>
        simp [cbIsItemDone, cbIsProgress]
        omega
    · rw [unitBlocks, fineRun_append_snd, List.filter_append, hblock.2.2.2,
        hrec.2.2.2.2, List.filter_append, List.length_cons,
        List.range_succ_eq_map, List.map_cons, List.map_map]
      have hfun : ((fun j => SvcCallback.progress t (s.completed t + j + 1) K)
            ∘ Nat.succ)
          = (fun j => SvcCallback.progress t (s.completed t + 1 + j + 1) K) := by
        funext j
        show SvcCallback.progress t (s.completed t + (j + 1) + 1) K = _
        have harith : s.completed t + (j + 1) + 1 = s.completed t + 1 + j + 1 := by
          omega
        rw [harith]
      rw [hfun]
      cases hres : u.2 with
      | none => simp [cbIsProgress, htot]
      | some r => simp [cbIsProgress, htot]

/-- Full batch trace under the serialized schedule: submission, each
unit handler executed without interleaving, in pool completion order
`order` (an arbitrary permutation of the enumerated images, each unit
carrying what `process_single_image` returned having run while
current), then the monitor after its join over all futures. -/
def serialBatchTrace (t : TaskId) (decode : FsPath → Option String)
    (paths : List FsPath) (order : List (Nat × FsPath)) : List FineAction :=
  FineAction.submit t paths.length
    :: (unitBlocks t
          (order.map fun ip => (ip.1, (processSingleImage (some t) t decode ip.1 ip.2).1))
        ++ [FineAction.monCheck t, FineAction.monCall t])

/-- State right after `generate_thumbnails_async` records the fresh
task id as current and resets the closure counters. -/
def afterSubmitF (s0 : FineState) (t : TaskId) (total : Nat) : FineState :=
  (fineStep s0 (FineAction.submit t total)).1

/-- C4 (amended): for a batch of `K = paths.length` items that remains
current until it finishes and whose completion handlers and monitor
execute without interleaving between a check and its guarded call (the
serialized schedule), `on_batch_done` fires exactly once and last —
strictly after every item callback; an item whose decode fails issues
no `on_item_done` but still counts toward progress and the barrier; the
`on_item_done` count equals the number of decode successes; and the
progress values are exactly `(1,K) .. (K,K)`, reaching `(K,K)`.
Without the serialization proviso the ordering and the `(K,K)`
guarantee fail — see the counterexample. -/
theorem batch_completion_barrier (s0 : FineState) (t : TaskId)
    (decode : FsPath → Option String) (paths : List FsPath)
    (order : List (Nat × FsPath)) (hperm : order.Perm paths.enum) :
    ((fineRun s0 (serialBatchTrace t decode paths order)).2.filter cbIsBatchDone
        = [SvcCallback.batchDone t])
    ∧ ((fineRun s0 (serialBatchTrace t decode paths order)).2.getLast?
        = some (SvcCallback.batchDone t))
    ∧ (((fineRun s0 (serialBatchTrace t decode paths order)).2.filter cbIsItemDone).length
        = (paths.filter (fun p => (decode p).isSome)).length)
    ∧ ((fineRun s0 (serialBatchTrace t decode paths order)).2.filter cbIsProgress
        = (List.range paths.length).map
            (fun j => SvcCallback.progress t (j + 1) paths.length)) := by
  have hcur1 : (afterSubmitF s0 t paths.length).current = some t := rfl
  have htot1 : (afterSubmitF s0 t paths.length).totals t = paths.length := by
    simp [afterSubmitF, fineStep, upd1]
  have hcomp1 : (afterSubmitF s0 t paths.length).completed t = 0 := by
    simp [afterSubmitF, fineStep, upd1]
  have hu := fineRun_units t paths.length
    (order.map fun ip => (ip.1, (processSingleImage (some t) t decode ip.1 ip.2).1))
    (afterSubmitF s0 t paths.length) hcur1 htot1
  rw [hcomp1] at hu
  have huslen : (order.map fun ip : Nat × FsPath =>
        (ip.1, (processSingleImage (some t) t decode ip.1 ip.2).1)).length
      = paths.length := by
    rw [List.length_map, hperm.length_eq, List.enum_length]
  have hcount : (order.map fun ip : Nat × FsPath =>
        (ip.1, (processSingleImage (some t) t decode ip.1 ip.2).1)).countP
          (fun u => u.2.isSome)
      = (paths.filter (fun p => (decode p).isSome)).length := by
    rw [List.countP_map]
    have hg : ((fun u : Nat × Option (Nat × String × FsPath) => u.2.isSome)
          ∘ fun ip : Nat × FsPath =>
              (ip.1, (processSingleImage (some t) t decode ip.1 ip.2).1))
        = (fun ip : Nat × FsPath => (decode ip.2).isSome) := by
      funext ip
      show ((processSingleImage (some t) t decode ip.1 ip.2).1).isSome = _
      rw [processSingleImage]
      rw [if_neg (by simp)]
      cases hd : decode ip.2 <;> simp [hd]
    rw [hg, hperm.countP_eq]
    have hsnd : (fun ip : Nat × FsPath => (decode ip.2).isSome)
        = ((fun p => (decode p).isSome) ∘ Prod.snd) := rfl
    rw [hsnd, ← List.countP_map, List.enum_map_snd, List.countP_eq_length_filter]
  have hmon : (fineRun (fineRun (afterSubmitF s0 t paths.length)
        (unitBlocks t (order.map fun ip =>
          (ip.1, (processSingleImage (some t) t decode ip.1 ip.2).1)))).1
      [FineAction.monCheck t, FineAction.monCall t]).2
      = [SvcCallback.batchDone t] := by
    simp [fineRun, fineStep, upd1, hu.1]
  have hout : (fineRun s0 (serialBatchTrace t decode paths order)).2
      = (fineRun (afterSubmitF s0 t paths.length)
          (unitBlocks t (order.map fun ip =>
            (ip.1, (processSingleImage (some t) t decode ip.1 ip.2).1)))).2
        ++ [SvcCallback.batchDone t] := by
    show (([] : List SvcCallback)
        ++ (fineRun (afterSubmitF s0 t paths.length)
            (unitBlocks t (order.map fun ip =>
              (ip.1, (processSingleImage (some t) t decode ip.1 ip.2).1))
              ++ [FineAction.monCheck t, FineAction.monCall t])).2) = _
    rw [fineRun_append_snd, hmon, List.nil_append]
  refine ⟨?_, ?_, ?_, ?_⟩
  · rw [hout, List.filter_append, hu.2.2.1]
    simp [cbIsBatchDone]
  · rw [hout, List.getLast?_concat]
  · rw [hout, List.filter_append, List.length_append, hu.2.2.2.1, hcount]
    simp [cbIsItemDone]
  · rw [hout, List.filter_append, hu.2.2.2.2, huslen]
    simp [cbIsProgress]

/-- Ten image paths for the end-to-end scenario. -/
def demoPaths : List FsPath :=
  ["f01.jpg", "f02.jpg", "f03.jpg", "f04.jpg", "f05.jpg",
   "f06.jpg", "f07.jpg", "f08.jpg", "f09.jpg", "f10.jpg"]

/-- Decode that fails exactly on image #4. -/
def demoDecode : FsPath → Option String :=
  fun p => if p = "f04.jpg" then none else some p

/-- Witness for C4 (amended): the end-to-end scenario of the spec — 10
images, image #4 corrupt, yielding 9 `on_item_done`, one final
`on_batch_done`, and progress reaching `(10,10)`. -/
theorem batch_completion_barrier_witness :
    ((fineRun fineInit (serialBatchTrace 7 demoDecode demoPaths demoPaths.enum)).2.filter
        cbIsBatchDone = [SvcCallback.batchDone 7])
    ∧ ((fineRun fineInit (serialBatchTrace 7 demoDecode demoPaths demoPaths.enum)).2.getLast?
        = some (SvcCallback.batchDone 7))
    ∧ (((fineRun fineInit (serialBatchTrace 7 demoDecode demoPaths demoPaths.enum)).2.filter
        cbIsItemDone).length = 9)
    ∧ (((fineRun fineInit (serialBatchTrace 7 demoDecode demoPaths demoPaths.enum)).2.filter
        cbIsProgress).getLast? = some (SvcCallback.progress 7 10 10)) := by
  have h := batch_completion_barrier fineInit 7 demoDecode demoPaths demoPaths.enum
    (List.Perm.refl _)
  refine ⟨h.1, h.2.1, ?_, ?_⟩
  · rw [h.2.2.1]
    decide
  · rw [h.2.2.2]
    decide

/-- Counterexample to C4 as stated: a 2-item batch that stays current
throughout.  Both decodes complete and both results are set, so the
monitor join returns (CPython wakes joiners in `set_result` before
running the done callbacks of that future); the monitor then delivers
`on_batch_done` before the second `on_item_done`, and the two handlers
interleave the loads and stores of the unsynchronized
`completed_count += 1` so an increment is lost: both progress callbacks
report `(1,2)` and progress never reaches `(2,2)` — against the claimed
batch-done-last barrier and `(K,K)` progress.  Each handler executes
its statements in program order. -/
theorem batch_done_overtakes_item_cex :
    (fineRun fineInit
      [FineAction.submit 7 2,
       FineAction.itemCheck 7 0 (some (0, "u0", "p0")), FineAction.itemCall 7 0,
       FineAction.itemCheck 7 1 (some (1, "u1", "p1")),
       FineAction.monCheck 7, FineAction.monCall 7,
       FineAction.itemCall 7 1,
       FineAction.incrRead 7 0, FineAction.incrRead 7 1,
       FineAction.incrWrite 7 0, FineAction.incrWrite 7 1,
       FineAction.progCheck 7 0, FineAction.progCall 7 0,
       FineAction.progCheck 7 1, FineAction.progCall 7 1]).2
      = [SvcCallback.itemDone 7 0 "u0" "p0", SvcCallback.batchDone 7,
         SvcCallback.itemDone 7 1 "u1" "p1",
         SvcCallback.progress 7 1 2, SvcCallback.progress 7 1 2] := by
  decide


/-- Counterexample to C3 as stated: a unit of batch 1 that starts while
batch 2 is already current returns `None` without performing any decode
work (the codec-invoked flag is `false`), even though the decode would
have succeeded — the early `current_task_id != task_id` check at the top
of `process_single_image` skips the work itself, not merely the
delivery. -/
theorem processSingleImage_superseded_skip_cex :
    processSingleImage (some 2) 1 (fun _ => some "data:image/png;base64,x") 0 "a.jpg"
      = (none, false) := rfl

/-- C3 (amended): a unit whose processing begins while its batch is
still current runs its decode to completion (the codec is invoked
whatever the outcome) and returns the decode result; a unit that begins
after its batch was superseded or cancelled skips the decode entirely
and returns nothing.  Only units already past the initial currency check
have their work completed with delivery suppressed. -/
theorem processSingleImage_decode_gating (current : Option TaskId)
    (taskId : TaskId) (decode : FsPath → Option String) (index : Nat)
    (imagePath : FsPath) :
    (current = some taskId →
      processSingleImage current taskId decode index imagePath
        = ((decode imagePath).map (fun u => (index, u, imagePath)), true))
    ∧ (current ≠ some taskId →
      processSingleImage current taskId decode index imagePath = (none, false)) := by
  constructor
  · intro h
    rw [processSingleImage, if_neg (by simp [h])]
    cases hd : decode imagePath <;> simp [hd]
  · intro h
    rw [processSingleImage, if_pos h]

/-- Witness for C3 (amended): current batch decodes; superseded batch
skips. -/
theorem processSingleImage_decode_gating_witness :
    processSingleImage (some 1) 1 (fun _ => some "u") 0 "a.jpg"
      = (some (0, "u", "a.jpg"), true)
    ∧ processSingleImage (some 2) 1 (fun _ => some "u") 0 "a.jpg"
      = (none, false) := by
  constructor
  · exact (processSingleImage_decode_gating (some 1) 1 (fun _ => some "u")
      0 "a.jpg").1 rfl
  · exact (processSingleImage_decode_gating (some 2) 1 (fun _ => some "u")
      0 "a.jpg").2 (by decide)

/-- Worker-level system effect of one unit of work, with the Thumbnail
Cache threaded through: the body of `process_single_image`
(async_thumbnail_service.py lines 68-95) contains no cache reference at
all, so the unit leaves any cache exactly as it found it — the first
component of the pair is the cache after the unit runs. -/
def workerUnit (cache : ThumbnailCache) (current : Option TaskId)
    (taskId : TaskId) (decode : FsPath → Option String) (index : Nat)
    (imagePath : FsPath) :
    ThumbnailCache × (Option (Nat × String × FsPath) × Bool) :=
  (cache, processSingleImage current taskId decode index imagePath)

/-- C1 (code bug evidence): a unit of the current batch whose decode
succeeds returns its result for the UI callback but stores nothing in
the Thumbnail Cache — the cache comes back unchanged whatever it
contained, because `process_single_image` never references a cache.
The claim (and `app.py:743`, which reads
`self.async_thumbnail_service.cache`, an attribute
`AsyncThumbnailService` never defines) expects the worker to write the
cache. -/
theorem worker_unit_leaves_cache_unchanged (cache : ThumbnailCache)
    (taskId : TaskId) (decode : FsPath → Option String) (index : Nat)
    (imagePath : FsPath) (dataUri : String)
    (hdec : decode imagePath = some dataUri) :
    workerUnit cache (some taskId) taskId decode index imagePath
      = (cache, (some (index, dataUri, imagePath), true)) := by
  rw [workerUnit, processSingleImage, if_neg (by simp), hdec]

/-- Witness for C1: on an empty cache of capacity 200 a successful unit
returns its thumbnail but the cache still does not contain the path. -/
theorem worker_unit_leaves_cache_unchanged_witness :
    workerUnit ⟨200, []⟩ (some 1) 1 (fun _ => some "data:image/png;base64,x")
        0 "img.jpg"
      = (⟨200, []⟩, (some (0, "data:image/png;base64,x", "img.jpg"), true))
    ∧ cacheContainsKey ⟨200, []⟩ "img.jpg" = false := by
  constructor
  · exact worker_unit_leaves_cache_unchanged ⟨200, []⟩ 1
      (fun _ => some "data:image/png;base64,x") 0 "img.jpg"
      "data:image/png;base64,x" rfl
  · rfl
